import Mathlib

/-!
Verification of the snapshot-to-slice histogram delta/percentile engine of
`analysis/act_latency.py`.

The engine's numeric core works on Python numbers.  Integers (Python `long`)
are embedded as `ℤ`; Python floats are idealised as `ℚ`, and `round(x, d)` is
embedded as rounding to `d` decimal digits with ties to even (the tie rule of
Python 3's `round`).  Log text is abstracted positionally: a line of a
histogram record is the finite list of `"(NN: v)"` bucket tokens it carries,
where a token's value is `none` when the captured text is not numeric (so that
`long(...)` raising `ValueError` is representable).
-/

/-- Rounding of a rational to the nearest integer, ties to even
(the behaviour of Python 3's builtin `round` on exact values). -/
def roundHalfEven (q : ℚ) : ℤ :=
  if q - ⌊q⌋ < 1/2 then ⌊q⌋
  else if q - ⌊q⌋ = 1/2 then (if Even ⌊q⌋ then ⌊q⌋ else ⌊q⌋ + 1)
  else ⌊q⌋ + 1

/-- `round(x, d)` of Python, on the idealised rational value. -/
def pyRound (x : ℚ) (d : ℕ) : ℚ :=
  (roundHalfEven (x * 10 ^ d) : ℚ) / 10 ^ d

theorem roundHalfEven_le_floor_add_one (q : ℚ) : roundHalfEven q ≤ ⌊q⌋ + 1 := by
  unfold roundHalfEven; split_ifs <;> omega

theorem floor_le_roundHalfEven (q : ℚ) : ⌊q⌋ ≤ roundHalfEven q := by
  unfold roundHalfEven; split_ifs <;> omega

theorem roundHalfEven_mono {a b : ℚ} (hab : a ≤ b) :
    roundHalfEven a ≤ roundHalfEven b := by
  rcases lt_or_eq_of_le (Int.floor_mono hab) with hf | hf
  · have h1 := roundHalfEven_le_floor_add_one a
    have h2 := floor_le_roundHalfEven b
    omega
  · have hra : a - ⌊a⌋ ≤ b - ⌊a⌋ := sub_le_sub_right hab _
    unfold roundHalfEven
    rw [← hf]
    by_cases ha1 : a - ⌊a⌋ < 1/2
    · rw [if_pos ha1]; split_ifs <;> omega
    · rw [if_neg ha1]
      by_cases ha2 : a - ⌊a⌋ = 1/2
      · rw [if_pos ha2]
        by_cases hev : Even ⌊a⌋
        · rw [if_pos hev]; split_ifs <;> omega
        · rw [if_neg hev]
          have hb1 : ¬ (b - (⌊a⌋ : ℚ) < 1/2) := by push_neg; linarith
          rw [if_neg hb1]
          split_ifs
          all_goals omega
      · have ha3 : 1/2 < a - ⌊a⌋ := lt_of_le_of_ne (not_lt.mp ha1) (Ne.symm ha2)
        rw [if_neg ha2]
        have hb1 : ¬ (b - (⌊a⌋ : ℚ) < 1/2) := by push_neg; linarith
        have hb2 : ¬ (b - (⌊a⌋ : ℚ) = 1/2) := by intro h; linarith
        rw [if_neg hb1, if_neg hb2]

theorem pyRound_mono {a b : ℚ} (d : ℕ) (hab : a ≤ b) : pyRound a d ≤ pyRound b d := by
  unfold pyRound
  have h10 : (0 : ℚ) < 10 ^ d := by positivity
  have h := roundHalfEven_mono (mul_le_mul_of_nonneg_right hab (le_of_lt h10))
  have h' : ((roundHalfEven (a * 10 ^ d) : ℤ) : ℚ) ≤ ((roundHalfEven (b * 10 ^ d) : ℤ) : ℚ) := by
    exact_mod_cast h
  exact div_le_div_of_nonneg_right h' h10.le

deriving instance DecidableEq for Except

/-- One line of a histogram record, abstracted to the ordered list of
`"(NN: value)"` bucket tokens it carries.  The first component is the
two-digit bucket index `NN`; the second is `some v` when the captured text
parses as an integer and `none` otherwise. -/
abbrev Line : Type := List (ℕ × Option ℤ)

/-- A histogram's cumulative record: the `total` captured from the
`"name (<total> total)"` head line (`none` when it cannot be located), and
the lines following the head line. -/
structure Record where
  total : Option ℤ
  lines : List Line
deriving DecidableEq

/-- Errors of `read_bucket_values`: Python raises `ValueError` from `long(...)`
either on the total (`"("`/`" total)"` not found) or on a bucket value. -/
inductive ParseErr where
  | totalNotFound : ParseErr
  | nonNumeric : ParseErr
deriving DecidableEq

/-- `BUCKET_PATTERNS[b].search(line)`: the first `"(NN: v)"` token of the line
with index `b`, if any. -/
def findBucket (line : Line) (b : ℕ) : Option (Option ℤ) :=
  (line.find? (fun p => p.1 = b)).map (fun p => p.2)

/-- The `for b in Hist.bucket_range[b_min:]` loop body of `read_bucket_values`:
scan one line for the bucket indices in `bs`, counting matches and storing
matched values; a non-numeric value makes `long(...)` raise. -/
def scan_buckets (line : Line) : List ℤ → ℕ → List ℕ → Except ParseErr (ℕ × List ℤ)
  | vals, found, [] => .ok (found, vals)
  | vals, found, b :: bs =>
    match findBucket line b with
    | some (some v) => scan_buckets line (vals.set b v) (found + 1) bs
    | some none => .error .nonNumeric
    | none => scan_buckets line vals found bs

/-- Scan one line for all buckets in `bucket_range[b_min:]` =
`range(max_bucket)[b_min:]`. -/
def scanLine (max_bucket : ℕ) (line : Line) (vals : List ℤ) (b_min : ℕ) :
    Except ParseErr (ℕ × List ℤ) :=
  scan_buckets line vals 0 ((List.range max_bucket).drop b_min)

/-- The `while True` loop of `read_bucket_values`: scan the current line;
stop when it contributes no bucket, otherwise advance to the next line
(EOF yields an empty line, which contributes nothing and stops the loop). -/
def read_bucket_loop (max_bucket : ℕ) : List Line → Line → List ℤ → ℕ →
    Except ParseErr (List ℤ)
  | lines, cur, vals, b_min =>
    match scanLine max_bucket cur vals b_min with
    | .error e => .error e
    | .ok (found, vals') =>
      if found = 0 then .ok vals'
      else
        match lines with
        | [] => .ok vals'
        | l :: ls => read_bucket_loop max_bucket ls l vals' (b_min + found)

/-- `read_bucket_values` (without the per-histogram state update, which is
modelled separately): start from `values = [0] * max_bucket`, read the total,
then run the scanning loop on the lines after the head line. -/
def read_bucket_values (max_bucket : ℕ) (r : Record) : Except ParseErr (ℤ × List ℤ) :=
  match r.total with
  | none => .error .totalNotFound
  | some total =>
    let init := List.replicate max_bucket (0 : ℤ)
    match r.lines with
    | [] => (read_bucket_loop max_bucket [] [] init 0).map (fun v => (total, v))
    | l :: ls => (read_bucket_loop max_bucket ls l init 0).map (fun v => (total, v))

/-- The `for b in Hist.bucket_range` loop of `bucket_percentages_over`:
running cumulative `delta`, each bucket reporting
`round(((slice_total - delta) * 100.0) / slice_total, 2)`. -/
def overs_loop (t : ℤ) : List ℤ → ℤ → List ℚ
  | [], _ => []
  | v :: rest, delta =>
    pyRound ((((t - (delta + v) : ℤ) : ℚ) * 100) / (t : ℚ)) 2 ::
      overs_loop t rest (delta + v)

/-- `bucket_percentages_over`: all-zero percentages when the slice total is
zero, otherwise the running-delta loop over the slice's bucket values
(whose length is `max_bucket` throughout the engine). -/
def bucket_percentages_over (t : ℤ) (vs : List ℤ) : List ℚ :=
  if t = 0 then List.replicate vs.length 0
  else overs_loop t vs 0

theorem overs_loop_length (t : ℤ) (vs : List ℤ) (d : ℤ) :
    (overs_loop t vs d).length = vs.length := by
  induction vs generalizing d with
  | nil => rfl
  | cons v rest ih => simp [overs_loop, ih]

theorem bucket_percentages_over_length (t : ℤ) (vs : List ℤ) :
    (bucket_percentages_over t vs).length = vs.length := by
  unfold bucket_percentages_over
  split
  · simp
  · exact overs_loop_length t vs 0

theorem overs_loop_getD (t : ℤ) (vs : List ℤ) (d : ℤ) (i : ℕ) (hi : i < vs.length) :
    (overs_loop t vs d).getD i 0 =
      pyRound ((((t - (d + (vs.take (i + 1)).sum) : ℤ) : ℚ) * 100) / (t : ℚ)) 2 := by
  induction vs generalizing d i with
  | nil => simp at hi
  | cons v rest ih =>
    cases i with
    | zero => simp [overs_loop]
    | succ i =>
      have hi' : i < rest.length := by simpa using hi
      have := ih (d + v) i hi'
      simp only [overs_loop, List.getD_cons_succ, List.take_succ_cons, List.sum_cons, this]
      ring_nf

/-- The per-run configuration shared by all histograms (the `Hist` class-level
fields and `Args` flags the engine reads): `slice_time` from `open_log_file`,
the display range from `find_max_bucket`, `max_bucket`, and the `-x` flag. -/
structure Cfg where
  slice_time : ℕ
  extra : Bool
  display_range : List ℕ
  max_bucket : ℕ
deriving DecidableEq

/-- The per-histogram mutable state of a `Hist` instance (the fields touched by
the engine: previous cumulative snapshot, current slice metrics, and running
aggregates). -/
structure HistState where
  name : String
  old_total : ℤ
  old_values : List ℤ
  slice_total : ℤ
  slice_values : List ℤ
  rate : ℚ
  avg_rate : ℚ
  max_rate : ℚ
  overs : List ℚ
  avg_overs : List ℚ
  max_overs : List ℚ
deriving DecidableEq

/-- `Hist.__init__`: a freshly registered histogram, all counters zero. -/
def initHist (max_bucket : ℕ) (nm : String) : HistState :=
  { name := nm
    old_total := 0
    old_values := List.replicate max_bucket 0
    slice_total := 0
    slice_values := List.replicate max_bucket 0
    rate := 0
    avg_rate := 0
    max_rate := 0
    overs := List.replicate max_bucket 0
    avg_overs := List.replicate max_bucket 0
    max_overs := List.replicate max_bucket 0 }

/-- The `for i in Hist.display_range` body of `bucket_aggregations`:
`avg_overs[i] += overs[i]`, and `max_overs[i] = overs[i]` when the slice's
percentage exceeds the stored maximum. -/
def agg_over_step (h : HistState) (i : ℕ) : HistState :=
  { h with
    avg_overs := h.avg_overs.set i (h.avg_overs.getD i 0 + h.overs.getD i 0)
    max_overs :=
      if h.overs.getD i 0 > h.max_overs.getD i 0 then
        h.max_overs.set i (h.overs.getD i 0)
      else h.max_overs }

/-- `bucket_aggregations`: compute the slice rate, then fold the slice's rate
and over-threshold percentages into the running sums and maxima (rate only
when `-x` was given). -/
def bucket_aggregations (cfg : Cfg) (h : HistState) : HistState :=
  let rate := pyRound ((h.slice_total : ℚ) / (cfg.slice_time : ℚ)) 1
  let h1 := { h with rate := rate }
  let h2 :=
    if cfg.extra then
      { h1 with
        avg_rate := h1.avg_rate + rate
        max_rate := if rate > h1.max_rate then rate else h1.max_rate }
    else h1
  cfg.display_range.foldl agg_over_step h2

/-- The state-update tail of `read_bucket_values` (lines 954-959 of the
source): take the slice delta against the previous cumulative snapshot with
plain subtraction, store the new snapshot, then derive the slice's
percentages and fold the aggregates. -/
def process_record (cfg : Cfg) (r : Record) (h : HistState) : Except ParseErr HistState :=
  match read_bucket_values cfg.max_bucket r with
  | .error e => .error e
  | .ok (total, values) =>
    let slice_total := total - h.old_total
    let slice_values := (values.zip h.old_values).map (fun p => p.1 - p.2)
    let h1 := { h with
      slice_total := slice_total
      slice_values := slice_values
      old_total := total
      old_values := values }
    let h2 := { h1 with overs := bucket_percentages_over slice_total slice_values }
    .ok (bucket_aggregations cfg h2)

/-- A line of a chunk that may introduce a histogram record: its full text is
abstracted to the text's start (`label`, matched against histogram names with
`line.startswith(hist.name)`) plus the parsed record that follows. -/
structure Entry where
  label : String
  record : Record
deriving DecidableEq

/-- `line.startswith(hist.name)` of Python, on the line's text. -/
def startswith (line nm : String) : Bool := nm.data.isPrefixOf line.data

/-- The `for hist in hists` match of `read_chunk`: the first histogram whose
name is a prefix of the line is updated from the record; lines matching no
histogram are skipped. -/
def update_first (cfg : Cfg) (e : Entry) : List HistState →
    Except ParseErr (Bool × List HistState)
  | [] => .ok (false, [])
  | h :: hs =>
    if startswith e.label h.name then
      match process_record cfg e.record h with
      | .error err => .error err
      | .ok h' => .ok (true, h' :: hs)
    else
      match update_first cfg e hs with
      | .error err => .error err
      | .ok (m, hs') => .ok (m, h :: hs')

/-- The line loop of `read_chunk` over the lines between a slice-boundary
marker and the next blank line; `got` is `got_chunk`. -/
def read_chunk_loop (cfg : Cfg) : List Entry → List HistState → Bool →
    Except ParseErr (Bool × List HistState)
  | [], hists, got => .ok (got, hists)
  | e :: es, hists, got =>
    match update_first cfg e hists with
    | .error err => .error err
    | .ok (m, hists') => read_chunk_loop cfg es hists' (got || m)

/-- `read_chunk`: process one slice's chunk, reporting whether any tracked
histogram's record was found in it. -/
def read_chunk (cfg : Cfg) (hists : List HistState) (chunk : List Entry) :
    Except ParseErr (Bool × List HistState) :=
  read_chunk_loop cfg chunk hists false

/-- Run-level errors: either a record parse error, or the `which_slice == 0`
exit of `output_latency_slices` ("could not find ... seconds of data"). -/
inductive RunError where
  | emptyRun : RunError
  | record : ParseErr → RunError
deriving DecidableEq

/-- The slice loop of `output_latency_slices`: consume chunks while complete
slice boundaries keep being found, counting slices in `which_slice`; when the
stream is exhausted (or a chunk has no histogram data) stop, and fail with the
empty-run error if no slice was completed. -/
def output_latency_slices (cfg : Cfg) : List HistState → List (List Entry) → ℕ →
    Except RunError (ℕ × List HistState)
  | hists, [], which_slice =>
    if which_slice = 0 then .error .emptyRun else .ok (which_slice, hists)
  | hists, c :: cs, which_slice =>
    match read_chunk cfg hists c with
    | .error e => .error (.record e)
    | .ok (false, hists') =>
      if which_slice = 0 then .error .emptyRun else .ok (which_slice, hists')
    | .ok (true, hists') => output_latency_slices cfg hists' cs (which_slice + 1)

/-- `print_latency_aggregates` (its numeric effect): divide every histogram's
running sums by the run-global slice count to finish the averages. -/
def print_latency_aggregates (cfg : Cfg) (num_slices : ℕ) (hists : List HistState) :
    List HistState :=
  hists.map (fun h =>
    let h1 := if cfg.extra then { h with avg_rate := h.avg_rate / (num_slices : ℚ) } else h
    { h1 with
      avg_overs := cfg.display_range.foldl
        (fun a i => a.set i (a.getD i 0 / (num_slices : ℚ))) h1.avg_overs })

/-- `main`'s engine path: run the slice loop, then (only on success) finalize
the aggregates with the run-global slice count. -/
def run_main (cfg : Cfg) (hists : List HistState) (chunks : List (List Entry)) :
    Except RunError (ℕ × List HistState) :=
  match output_latency_slices cfg hists chunks 0 with
  | .error e => .error e
  | .ok (n, hists') => .ok (n, print_latency_aggregates cfg n hists')

/-- `open_log_file`'s slice-time adjustment:
`Hist.slice_time = ((Args.slice + interval - 1) // interval) * interval`. -/
def slice_time_of (slice interval : ℕ) : ℕ :=
  ((slice + interval - 1) / interval) * interval

theorem getD_set_ne {α : Type} (a : List α) {i j : ℕ} (hij : i ≠ j) (v d : α) :
    (a.set i v).getD j d = a.getD j d := by
  simp [List.getD_eq_getElem?_getD, List.getElem?_set_ne hij]

theorem getD_set_self {α : Type} (a : List α) {i : ℕ} (hi : i < a.length) (v d : α) :
    (a.set i v).getD i d = v := by
  simp [List.getD_eq_getElem?_getD, List.getElem?_set_self hi]

theorem getD_replicate_zero (n k : ℕ) : (List.replicate n (0 : ℚ)).getD k 0 = 0 := by
  simp only [List.getD_eq_getElem?_getD, List.getElem?_replicate]
  split <;> rfl

theorem take_sum_mono {vs : List ℤ} (hvs : ∀ v ∈ vs, 0 ≤ v) {i j : ℕ} (hij : i ≤ j) :
    (vs.take i).sum ≤ (vs.take j).sum := by
  have h1 : (vs.take j).take i = vs.take i := by rw [List.take_take, min_eq_left hij]
  have h2 := List.sum_take_add_sum_drop (vs.take j) i
  have h3 : 0 ≤ ((vs.take j).drop i).sum :=
    List.sum_nonneg (fun x hx => hvs x (List.mem_of_mem_take (List.mem_of_mem_drop hx)))
  have h4 : (vs.take i).sum = ((vs.take j).take i).sum := by rw [h1]
  omega

/-- C1: for every slice with `sliceTotal ≠ 0`, `bucket_percentages_over`
computes, at each bucket index `i` below `max_bucket` (the length of the
slice's bucket-value list), the value
`round(((sliceTotal - delta) * 100.0) / sliceTotal, 2)` where `delta` is the
running cumulative sum of the slice bucket values on indices `0..i`
inclusive; the witness evaluates the slice `sliceTotal = 100`,
`sliceBucket = [40, 30, 30]` to `overBucket = [60.00, 30.00, 0.00]`. -/
theorem c1_percentile_running_delta (t : ℤ) (vs : List ℤ) (ht : t ≠ 0)
    (i : ℕ) (hi : i < vs.length) :
    (bucket_percentages_over t vs).getD i 0 =
      pyRound ((((t - (vs.take (i + 1)).sum : ℤ) : ℚ) * 100) / (t : ℚ)) 2 := by
  unfold bucket_percentages_over
  rw [if_neg ht]
  simpa using overs_loop_getD t vs 0 i hi

theorem c1_percentile_running_delta_witness :
    ((bucket_percentages_over 100 [40, 30, 30]).getD 1 0 =
      pyRound (((((100 : ℤ) - (([40, 30, 30] : List ℤ).take (1 + 1)).sum : ℤ) : ℚ) * 100) /
        ((100 : ℤ) : ℚ)) 2) ∧
    bucket_percentages_over 100 [40, 30, 30] = [60, 30, 0] :=
  ⟨c1_percentile_running_delta 100 [40, 30, 30] (by decide) 1 (by decide),
   by norm_num [bucket_percentages_over, overs_loop, pyRound, roundHalfEven]⟩

/-- C5 counterexample: the claim asserts monotone non-increase whenever the
bucket deltas are non-negative, with no condition on `sliceTotal`; on the
slice `sliceTotal = -100` (cumulative total decreased), bucket deltas
`[40, 30]` (non-negative), the computed sequence is `[140, 170]`, which
increases. -/
theorem c5_counterexample :
    ¬ ((bucket_percentages_over (-100) [40, 30]).getD 1 0 ≤
       (bucket_percentages_over (-100) [40, 30]).getD 0 0) := by
  norm_num [bucket_percentages_over, overs_loop, pyRound, roundHalfEven]

/-- C5 (amended): for every slice whose `sliceTotal` and bucket deltas are all
non-negative, the computed `overBucket` sequence is monotonically
non-increasing in the bucket index. -/
theorem c5_overs_antitone (t : ℤ) (vs : List ℤ) (ht : 0 ≤ t)
    (hvs : ∀ v ∈ vs, 0 ≤ v) (i j : ℕ) (hij : i ≤ j) (hj : j < vs.length) :
    (bucket_percentages_over t vs).getD j 0 ≤ (bucket_percentages_over t vs).getD i 0 := by
  rcases eq_or_lt_of_le ht with h0 | hpos
  · unfold bucket_percentages_over
    rw [if_pos h0.symm]
    rw [getD_replicate_zero, getD_replicate_zero]
  · have ht0 : t ≠ 0 := by omega
    have hi : i < vs.length := lt_of_le_of_lt hij hj
    unfold bucket_percentages_over
    rw [if_neg ht0]
    rw [overs_loop_getD t vs 0 j hj, overs_loop_getD t vs 0 i hi]
    apply pyRound_mono
    have hS : (vs.take (i + 1)).sum ≤ (vs.take (j + 1)).sum :=
      take_sum_mono hvs (by omega)
    have htq : (0 : ℚ) < (t : ℚ) := by exact_mod_cast hpos
    have hnum : ((t - (0 + (vs.take (j + 1)).sum) : ℤ) : ℚ) ≤
        ((t - (0 + (vs.take (i + 1)).sum) : ℤ) : ℚ) := by
      have : (t - (0 + (vs.take (j + 1)).sum) : ℤ) ≤ (t - (0 + (vs.take (i + 1)).sum) : ℤ) := by
        omega
      exact_mod_cast this
    have hnum' := mul_le_mul_of_nonneg_right hnum (by norm_num : (0 : ℚ) ≤ 100)
    exact div_le_div_of_nonneg_right hnum' htq.le

theorem c5_overs_antitone_witness :
    ((0 : ℤ) ≤ 100) ∧
    (bucket_percentages_over 100 [40, 30, 30]).getD 2 0 ≤
      (bucket_percentages_over 100 [40, 30, 30]).getD 0 0 :=
  ⟨by decide, c5_overs_antitone 100 [40, 30, 30] (by decide) (by decide) 0 2
    (by decide) (by decide)⟩

theorem scan_buckets_length (line : Line) (vals : List ℤ) (found : ℕ) (bs : List ℕ)
    {res : ℕ × List ℤ} (h : scan_buckets line vals found bs = .ok res) :
    res.2.length = vals.length := by
  induction bs generalizing vals found with
  | nil =>
    unfold scan_buckets at h
    cases h
    rfl
  | cons b bs ih =>
    unfold scan_buckets at h
    cases hfb : findBucket line b with
    | none =>
      rw [hfb] at h
      exact ih _ _ h
    | some o =>
      cases o with
      | none => rw [hfb] at h; cases h
      | some v =>
        rw [hfb] at h
        have := ih _ _ h
        simpa [List.length_set] using this

theorem scanLine_length (mb : ℕ) (cur : Line) (vals : List ℤ) (bm : ℕ)
    {res : ℕ × List ℤ} (h : scanLine mb cur vals bm = .ok res) :
    res.2.length = vals.length :=
  scan_buckets_length cur vals 0 _ h

theorem read_bucket_loop_length (mb : ℕ) (lines : List Line) (cur : Line)
    (vals : List ℤ) (bm : ℕ) {v : List ℤ}
    (h : read_bucket_loop mb lines cur vals bm = .ok v) : v.length = vals.length := by
  induction lines generalizing cur vals bm with
  | nil =>
    unfold read_bucket_loop at h
    cases hs : scanLine mb cur vals bm with
    | error e => rw [hs] at h; cases h
    | ok fv =>
      rw [hs] at h
      obtain ⟨found, vals'⟩ := fv
      have hlen : vals'.length = vals.length := scanLine_length mb cur vals bm hs
      simp only at h
      split at h <;> (cases h; exact hlen)
  | cons l ls ih =>
    unfold read_bucket_loop at h
    cases hs : scanLine mb cur vals bm with
    | error e => rw [hs] at h; cases h
    | ok fv =>
      rw [hs] at h
      obtain ⟨found, vals'⟩ := fv
      have hlen : vals'.length = vals.length := scanLine_length mb cur vals bm hs
      simp only at h
      split at h
      · cases h; exact hlen
      · have := ih l vals' (bm + found) h
        omega

theorem read_bucket_values_length (mb : ℕ) (r : Record) {total : ℤ} {v : List ℤ}
    (h : read_bucket_values mb r = .ok (total, v)) : v.length = mb := by
  unfold read_bucket_values at h
  cases ht : r.total with
  | none => rw [ht] at h; cases h
  | some tv =>
    rw [ht] at h
    cases hl : r.lines with
    | nil =>
      rw [hl] at h
      simp only [Except.map] at h
      cases hloop : read_bucket_loop mb [] [] (List.replicate mb 0) 0 with
      | error e => rw [hloop] at h; cases h
      | ok v' =>
        rw [hloop] at h
        cases h
        simpa using read_bucket_loop_length mb [] [] (List.replicate mb 0) 0 hloop
    | cons l ls =>
      rw [hl] at h
      simp only [Except.map] at h
      cases hloop : read_bucket_loop mb ls l (List.replicate mb 0) 0 with
      | error e => rw [hloop] at h; cases h
      | ok v' =>
        rw [hloop] at h
        cases h
        simpa using read_bucket_loop_length mb ls l (List.replicate mb 0) 0 hloop

theorem zip_sub_getD (xs ys : List ℤ) (i : ℕ) (hx : i < xs.length) (hy : i < ys.length) :
    ((xs.zip ys).map (fun p => p.1 - p.2)).getD i 0 = xs.getD i 0 - ys.getD i 0 := by
  induction xs generalizing ys i with
  | nil => simp at hx
  | cons x xs ih =>
    cases ys with
    | nil => simp at hy
    | cons y ys =>
      cases i with
      | zero => simp
      | succ i => simpa using ih ys i (by simpa using hx) (by simpa using hy)

theorem agg_over_step_fields (h : HistState) (i : ℕ) :
    (agg_over_step h i).name = h.name ∧
    (agg_over_step h i).old_total = h.old_total ∧
    (agg_over_step h i).old_values = h.old_values ∧
    (agg_over_step h i).slice_total = h.slice_total ∧
    (agg_over_step h i).slice_values = h.slice_values ∧
    (agg_over_step h i).overs = h.overs ∧
    (agg_over_step h i).rate = h.rate ∧
    (agg_over_step h i).avg_rate = h.avg_rate ∧
    (agg_over_step h i).max_rate = h.max_rate :=
  ⟨rfl, rfl, rfl, rfl, rfl, rfl, rfl, rfl, rfl⟩

theorem foldl_agg_fields (L : List ℕ) (h : HistState) :
    ((L.foldl agg_over_step h).name = h.name ∧
     (L.foldl agg_over_step h).old_total = h.old_total ∧
     (L.foldl agg_over_step h).old_values = h.old_values ∧
     (L.foldl agg_over_step h).slice_total = h.slice_total ∧
     (L.foldl agg_over_step h).slice_values = h.slice_values ∧
     (L.foldl agg_over_step h).overs = h.overs) ∧
    ((L.foldl agg_over_step h).rate = h.rate ∧
     (L.foldl agg_over_step h).avg_rate = h.avg_rate ∧
     (L.foldl agg_over_step h).max_rate = h.max_rate) := by
  induction L generalizing h with
  | nil => exact ⟨⟨rfl, rfl, rfl, rfl, rfl, rfl⟩, rfl, rfl, rfl⟩
  | cons i L ih =>
    simpa only [List.foldl_cons, agg_over_step] using ih (agg_over_step h i)

theorem bucket_aggregations_slice_total (cfg : Cfg) (h : HistState) :
    (bucket_aggregations cfg h).slice_total = h.slice_total := by
  unfold bucket_aggregations
  by_cases hx : cfg.extra <;>
    simp [hx, (foldl_agg_fields cfg.display_range _).1.2.2.2.1]

theorem bucket_aggregations_slice_values (cfg : Cfg) (h : HistState) :
    (bucket_aggregations cfg h).slice_values = h.slice_values := by
  unfold bucket_aggregations
  by_cases hx : cfg.extra <;>
    simp [hx, (foldl_agg_fields cfg.display_range _).1.2.2.2.2.1]

theorem bucket_aggregations_overs (cfg : Cfg) (h : HistState) :
    (bucket_aggregations cfg h).overs = h.overs := by
  unfold bucket_aggregations
  by_cases hx : cfg.extra <;>
    simp [hx, (foldl_agg_fields cfg.display_range _).1.2.2.2.2.2]

theorem bucket_aggregations_rate (cfg : Cfg) (h : HistState) :
    (bucket_aggregations cfg h).rate =
      pyRound ((h.slice_total : ℚ) / (cfg.slice_time : ℚ)) 1 := by
  unfold bucket_aggregations
  by_cases hx : cfg.extra <;>
    simp [hx, (foldl_agg_fields cfg.display_range _).2.1]

/-- C2: for every previous snapshot (held in the histogram state) and current
cumulative record, the state update of `read_bucket_values` computes
`sliceTotal = cur.total - prev.total` and
`sliceBucket[i] = cur.bucketCumulative[i] - prev.bucketCumulative[i]` for every
`i < max_bucket` by plain subtraction — no clamping — and hands exactly those
(possibly negative) deltas to `bucket_percentages_over`. -/
theorem c2_slice_delta (cfg : Cfg) (r : Record) (h : HistState)
    (total : ℤ) (values : List ℤ)
    (hok : read_bucket_values cfg.max_bucket r = .ok (total, values))
    (hlen : h.old_values.length = cfg.max_bucket) :
    ∃ h', process_record cfg r h = .ok h' ∧
      h'.slice_total = total - h.old_total ∧
      (∀ i, i < cfg.max_bucket →
        h'.slice_values.getD i 0 = values.getD i 0 - h.old_values.getD i 0) ∧
      h'.overs = bucket_percentages_over (total - h.old_total) h'.slice_values := by
  have hvlen : values.length = cfg.max_bucket := read_bucket_values_length _ _ hok
  have hpr : process_record cfg r h = .ok (bucket_aggregations cfg
      { h with
        slice_total := total - h.old_total
        slice_values := (values.zip h.old_values).map (fun p => p.1 - p.2)
        old_total := total
        old_values := values
        overs := bucket_percentages_over (total - h.old_total)
          ((values.zip h.old_values).map (fun p => p.1 - p.2)) }) := by
    unfold process_record
    rw [hok]
  refine ⟨_, hpr, ?_, ?_, ?_⟩
  · rw [bucket_aggregations_slice_total]
  · intro i hi
    rw [bucket_aggregations_slice_values]
    exact zip_sub_getD values h.old_values i (by omega) (by omega)
  · rw [bucket_aggregations_overs, bucket_aggregations_slice_values]

def exCfg2 : Cfg := { slice_time := 10, extra := true, display_range := [0, 1], max_bucket := 2 }

def exRec2 : Record := { total := some 40, lines := [[(0, some 5), (1, some 5)]] }

def exHist2 : HistState :=
  { initHist 2 "reads" with old_total := 100, old_values := [10, 10] }

theorem c2_slice_delta_witness :
    ∃ h', process_record exCfg2 exRec2 exHist2 = .ok h' ∧
      h'.slice_total = 40 - exHist2.old_total ∧
      (∀ i, i < exCfg2.max_bucket →
        h'.slice_values.getD i 0 = ([5, 5] : List ℤ).getD i 0 - exHist2.old_values.getD i 0) ∧
      h'.overs = bucket_percentages_over (40 - exHist2.old_total) h'.slice_values :=
  c2_slice_delta exCfg2 exRec2 exHist2 40 [5, 5] (by decide) (by decide)

theorem slice_time_of_ceil (s i : ℕ) (hi : 1 ≤ i) :
    ((slice_time_of s i : ℕ) : ℤ) = ⌈(s : ℚ) / (i : ℚ)⌉ * (i : ℤ) := by
  have hq := Nat.div_add_mod (s + i - 1) i
  have hr : (s + i - 1) % i < i := Nat.mod_lt _ (by omega)
  set q : ℕ := (s + i - 1) / i with hqdef
  set r : ℕ := (s + i - 1) % i with hrdef
  have hq' : (i : ℤ) * (q : ℤ) + (r : ℤ) = (s : ℤ) + (i : ℤ) - 1 := by
    have hc := congrArg (Nat.cast : ℕ → ℤ) hq
    push_cast [Nat.cast_sub (show 1 ≤ s + i by omega)] at hc
    linarith
  have hr' : (r : ℤ) < (i : ℤ) := by exact_mod_cast hr
  have hr0 : (0 : ℤ) ≤ (r : ℤ) := Int.ofNat_nonneg r
  have hi' : (1 : ℤ) ≤ (i : ℤ) := by exact_mod_cast hi
  have hA : ((q : ℤ) - 1) * (i : ℤ) < (s : ℤ) := by nlinarith
  have hB : (s : ℤ) ≤ (q : ℤ) * (i : ℤ) := by nlinarith
  have ipos : (0 : ℚ) < (i : ℚ) := by
    have : (0 : ℕ) < i := by omega
    exact_mod_cast this
  have hceil : ⌈(s : ℚ) / (i : ℚ)⌉ = (q : ℤ) := by
    rw [Int.ceil_eq_iff]
    constructor
    · rw [lt_div_iff₀ ipos]
      have : (((q : ℤ) - 1 : ℤ) : ℚ) * ((i : ℤ) : ℚ) < (((s : ℤ)) : ℚ) := by
        exact_mod_cast hA
      push_cast at this ⊢
      linarith
    · rw [div_le_iff₀ ipos]
      have : (((s : ℤ)) : ℚ) ≤ (((q : ℤ)) : ℚ) * (((i : ℤ)) : ℚ) := by
        exact_mod_cast hB
      push_cast at this ⊢
      linarith
  rw [hceil]
  unfold slice_time_of
  push_cast [← hqdef]
  ring

/-- C7: for every slice, the rate stored by `bucket_aggregations` is
`round(sliceTotal / sliceDurationSeconds, 1)`, and `Hist.slice_time` (the
slice duration) is the configured slice interval rounded up to the nearest
multiple of the log's reporting interval,
`ceil(configuredSlice / reportInterval) * reportInterval`; the witness checks
the spec's example: configured slice `25` s with reporting interval `10` s
gives slice duration `30` s. -/
theorem c7_rate_and_slice_duration (s i : ℕ) (hi : 1 ≤ i) (cfg : Cfg) (h : HistState) :
    ((slice_time_of s i : ℕ) : ℤ) = ⌈(s : ℚ) / (i : ℚ)⌉ * (i : ℤ) ∧
    (bucket_aggregations cfg h).rate =
      pyRound ((h.slice_total : ℚ) / (cfg.slice_time : ℚ)) 1 :=
  ⟨slice_time_of_ceil s i hi, bucket_aggregations_rate cfg h⟩

theorem c7_rate_and_slice_duration_witness :
    (((slice_time_of 25 10 : ℕ) : ℤ) = ⌈((25 : ℕ) : ℚ) / ((10 : ℕ) : ℚ)⌉ * ((10 : ℕ) : ℤ) ∧
     (bucket_aggregations exCfg2 exHist2).rate =
       pyRound ((exHist2.slice_total : ℚ) / (exCfg2.slice_time : ℚ)) 1) ∧
    slice_time_of 25 10 = 30 :=
  ⟨c7_rate_and_slice_duration 25 10 (by decide) exCfg2 exHist2, by decide⟩

theorem agg_over_step_max_mono (h : HistState) (j i : ℕ) :
    h.max_overs.getD i 0 ≤ (agg_over_step h j).max_overs.getD i 0 := by
  simp only [agg_over_step]
  split
  · rename_i hgt
    by_cases hij : i = j
    · subst hij
      by_cases hlen : i < h.max_overs.length
      · rw [getD_set_self _ hlen]
        linarith
      · rw [List.set_eq_of_length_le (by omega)]
    · rw [getD_set_ne _ (fun hji => hij hji.symm)]
  · exact le_refl _

theorem foldl_agg_max_mono (L : List ℕ) (h : HistState) (i : ℕ) :
    h.max_overs.getD i 0 ≤ (L.foldl agg_over_step h).max_overs.getD i 0 := by
  induction L generalizing h with
  | nil => exact le_refl _
  | cons j L ih =>
    exact le_trans (agg_over_step_max_mono h j i) (ih (agg_over_step h j))

theorem bucket_aggregations_max_overs_mono (cfg : Cfg) (h : HistState) (i : ℕ) :
    h.max_overs.getD i 0 ≤ (bucket_aggregations cfg h).max_overs.getD i 0 := by
  unfold bucket_aggregations
  by_cases hx : cfg.extra <;> simp only [hx, if_true, if_false] <;>
    exact foldl_agg_max_mono _ _ i

theorem bucket_aggregations_max_rate_mono (cfg : Cfg) (h : HistState) :
    h.max_rate ≤ (bucket_aggregations cfg h).max_rate := by
  unfold bucket_aggregations
  rw [(foldl_agg_fields _ _).2.2.2]
  by_cases hx : cfg.extra
  · rw [if_pos hx]
    simp only []
    split
    · rename_i hgt; linarith
    · exact le_refl _
  · rw [if_neg hx]

/-- C10: for every fold of a slice into the running aggregates
(`bucket_aggregations`), every entry of `max_overs` and the stored `max_rate`
are monotonically non-decreasing, and consequently never drop below a
non-negative previous value — in particular they stay at least `0.0` (their
`Hist.__init__` value) even when a counter reset makes the slice's
percentages or rate negative, because the maximum is only replaced by a
strictly greater candidate. -/
theorem c10_max_aggregates_monotone (cfg : Cfg) (h : HistState) (i : ℕ) :
    h.max_overs.getD i 0 ≤ (bucket_aggregations cfg h).max_overs.getD i 0 ∧
    h.max_rate ≤ (bucket_aggregations cfg h).max_rate ∧
    (0 ≤ h.max_overs.getD i 0 → 0 ≤ (bucket_aggregations cfg h).max_overs.getD i 0) ∧
    (0 ≤ h.max_rate → 0 ≤ (bucket_aggregations cfg h).max_rate) :=
  ⟨bucket_aggregations_max_overs_mono cfg h i,
   bucket_aggregations_max_rate_mono cfg h,
   fun h0 => le_trans h0 (bucket_aggregations_max_overs_mono cfg h i),
   fun h0 => le_trans h0 (bucket_aggregations_max_rate_mono cfg h)⟩

/-- A histogram state observing a counter reset: the slice percentages and
total are negative, the stored maxima are still at their initial value 0. -/
def exHistNeg : HistState :=
  { initHist 2 "reads" with slice_total := -60, overs := [-20, -30] }

theorem c10_max_aggregates_monotone_witness :
    (exHistNeg.max_overs.getD 0 0 ≤
       (bucket_aggregations exCfg2 exHistNeg).max_overs.getD 0 0 ∧
     exHistNeg.max_rate ≤ (bucket_aggregations exCfg2 exHistNeg).max_rate ∧
     (0 ≤ exHistNeg.max_overs.getD 0 0 →
       0 ≤ (bucket_aggregations exCfg2 exHistNeg).max_overs.getD 0 0) ∧
     (0 ≤ exHistNeg.max_rate → 0 ≤ (bucket_aggregations exCfg2 exHistNeg).max_rate)) ∧
    (bucket_aggregations exCfg2 exHistNeg).max_overs = [0, 0] :=
  ⟨c10_max_aggregates_monotone exCfg2 exHistNeg 0,
   by norm_num [bucket_aggregations, agg_over_step, exCfg2, exHistNeg, initHist,
     pyRound, roundHalfEven, List.replicate_succ, List.replicate_zero]⟩

/-- C8: when the stream is exhausted with zero complete slices found,
`output_latency_slices` fails with the empty-run exit ("could not find ...
seconds of data"), which is a `RunError` constructor distinct from every
record parse error; `run_main` then propagates the error, so
`print_latency_aggregates` is never applied and no averages or maxima are
produced. -/
theorem c8_empty_run (cfg : Cfg) (hists : List HistState) (e : ParseErr) :
    run_main cfg hists [] = .error .emptyRun ∧
    RunError.emptyRun ≠ RunError.record e :=
  ⟨rfl, fun hc => RunError.noConfusion hc⟩

theorem output_latency_slices_cons (cfg : Cfg) (hists : List HistState)
    (c : List Entry) (cs : List (List Entry)) (n : ℕ) :
    output_latency_slices cfg hists (c :: cs) n =
      match read_chunk cfg hists c with
      | .error e => .error (.record e)
      | .ok (false, hists') => if n = 0 then .error .emptyRun else .ok (n, hists')
      | .ok (true, hists') => output_latency_slices cfg hists' cs (n + 1) := rfl

/-- C4: a slice with `sliceTotal = 0` is a defined result, not an error:
every computed percentage is `0.0`, the stored rate is
`round(0 / slice_time, 1) = 0.0`, and the slice still advances `which_slice`
(the count later used as the averaging divisor) exactly like any other
chunk in which a histogram record was found. -/
theorem c4_zero_total_slice (vs : List ℤ) (cfg : Cfg) (h : HistState)
    (h0 : h.slice_total = 0) (hists : List HistState) (c : List Entry)
    (cs : List (List Entry)) (n : ℕ) (hists' : List HistState)
    (hrc : read_chunk cfg hists c = .ok (true, hists')) :
    bucket_percentages_over 0 vs = List.replicate vs.length 0 ∧
    (bucket_aggregations cfg h).rate = 0 ∧
    output_latency_slices cfg hists (c :: cs) n =
      output_latency_slices cfg hists' cs (n + 1) := by
  refine ⟨?_, ?_, ?_⟩
  · unfold bucket_percentages_over
    rw [if_pos rfl]
  · rw [bucket_aggregations_rate, h0]
    norm_num [pyRound, roundHalfEven]
  · rw [output_latency_slices_cons, hrc]

/-- A cumulative record reporting total `0` and no bucket lines. -/
def exRecZ : Record := { total := some 0, lines := [] }

/-- The chunk line introducing `exRecZ` for histogram `"reads"`. -/
def exEntryZ : Entry := { label := "reads (0 total)", record := exRecZ }

/-- A freshly registered `"reads"` histogram. -/
def exHistZ : HistState := initHist 2 "reads"

theorem process_record_exZ : process_record exCfg2 exRecZ exHistZ = .ok exHistZ := by
  norm_num [process_record, read_bucket_values, read_bucket_loop, scanLine, scan_buckets,
    findBucket, bucket_percentages_over, bucket_aggregations, agg_over_step,
    pyRound, roundHalfEven, exCfg2, exRecZ, exHistZ, initHist,
    List.replicate_succ, List.replicate_zero, List.zip_cons_cons,
    List.set_cons_zero, List.set_cons_succ, List.foldl_cons, List.foldl_nil,
    Except.map, List.getElem?_cons_zero, List.getElem?_cons_succ, Option.getD_some]

theorem read_chunk_exZ : read_chunk exCfg2 [exHistZ] [exEntryZ] = .ok (true, [exHistZ]) := by
  have hsw : startswith exEntryZ.label exHistZ.name = true := by decide
  have hrec : exEntryZ.record = exRecZ := rfl
  simp [read_chunk, read_chunk_loop, update_first, hsw, hrec, process_record_exZ]

theorem c4_zero_total_slice_witness :
    bucket_percentages_over 0 [0, 0] = List.replicate ([0, 0] : List ℤ).length 0 ∧
    (bucket_aggregations exCfg2 exHistZ).rate = 0 ∧
    output_latency_slices exCfg2 [exHistZ] [[exEntryZ]] 0 =
      output_latency_slices exCfg2 [exHistZ] [] (0 + 1) :=
  c4_zero_total_slice [0, 0] exCfg2 exHistZ rfl [exHistZ] [exEntryZ] [] 0 [exHistZ]
    read_chunk_exZ

/-- C3 counterexample: a record for `max_bucket = 3` carrying only buckets
`00` and `01` is not rejected: `read_bucket_values` returns successfully,
with the missing bucket `02` left at the initialization value `0`. -/
theorem c3_counterexample :
    read_bucket_values 3 ⟨some 10, [[(0, some 5), (1, some 5)]]⟩ =
      .ok (10, [5, 5, 0]) := rfl

theorem scan_buckets_numeric_ok (line : Line) (hnum : ∀ p ∈ line, p.2 ≠ none)
    (vals : List ℤ) (found : ℕ) (bs : List ℕ) :
    ∃ res, scan_buckets line vals found bs = .ok res := by
  induction bs generalizing vals found with
  | nil => exact ⟨(found, vals), rfl⟩
  | cons b bs ih =>
    unfold scan_buckets
    cases hfb : findBucket line b with
    | none => exact ih _ _
    | some o =>
      cases o with
      | some v => exact ih _ _
      | none =>
        exfalso
        unfold findBucket at hfb
        cases hf : line.find? (fun p => p.1 = b) with
        | none => rw [hf] at hfb; cases hfb
        | some p =>
          rw [hf] at hfb
          have hp2 : p.2 = none := by simpa using hfb
          exact hnum p (List.mem_of_find?_eq_some hf) hp2

theorem read_bucket_loop_numeric_ok (mb : ℕ) (lines : List Line) (cur : Line)
    (vals : List ℤ) (bm : ℕ)
    (hnum : ∀ l ∈ lines, ∀ p ∈ l, p.2 ≠ none) (hcur : ∀ p ∈ cur, p.2 ≠ none) :
    ∃ v, read_bucket_loop mb lines cur vals bm = .ok v := by
  induction lines generalizing cur vals bm with
  | nil =>
    obtain ⟨⟨found, vals'⟩, hs⟩ :=
      scan_buckets_numeric_ok cur hcur vals 0 ((List.range mb).drop bm)
    unfold read_bucket_loop
    rw [show scanLine mb cur vals bm = .ok (found, vals') from hs]
    simp only []
    by_cases hf : found = 0
    · rw [if_pos hf]; exact ⟨vals', rfl⟩
    · rw [if_neg hf]; exact ⟨vals', rfl⟩
  | cons l ls ih =>
    obtain ⟨⟨found, vals'⟩, hs⟩ :=
      scan_buckets_numeric_ok cur hcur vals 0 ((List.range mb).drop bm)
    unfold read_bucket_loop
    rw [show scanLine mb cur vals bm = .ok (found, vals') from hs]
    simp only []
    by_cases hf : found = 0
    · rw [if_pos hf]; exact ⟨vals', rfl⟩
    · rw [if_neg hf]
      exact ih l vals' (bm + found) (fun l' hl' => hnum l' (by simp [hl'])) (hnum l (by simp))

/-- C3 (amended): a short record — fewer than `max_bucket` bucket pairs
present — is silently accepted, never a parse error: for every record whose
present bucket values are numeric, `read_bucket_values` returns `ok`
(the bucket scan simply stops at the first line contributing no new bucket,
leaving unmatched buckets at the initialization value `0`); parse errors
arise only from a missing total or a non-numeric bucket value. -/
theorem c3_short_record_silently_accepted (mb : ℕ) (t : ℤ) (lines : List Line)
    (hnum : ∀ l ∈ lines, ∀ p ∈ l, p.2 ≠ none) :
    ∃ v, read_bucket_values mb ⟨some t, lines⟩ = .ok (t, v) := by
  unfold read_bucket_values
  cases lines with
  | nil =>
    obtain ⟨v, hv⟩ := read_bucket_loop_numeric_ok mb [] [] (List.replicate mb 0) 0
      (by simp) (by simp)
    exact ⟨v, by dsimp only; rw [hv]; rfl⟩
  | cons l ls =>
    obtain ⟨v, hv⟩ := read_bucket_loop_numeric_ok mb ls l (List.replicate mb 0) 0
      (fun l' hl' => hnum l' (by simp [hl'])) (hnum l (by simp))
    exact ⟨v, by dsimp only; rw [hv]; rfl⟩

theorem c3_short_record_silently_accepted_witness :
    ∃ v, read_bucket_values 3 ⟨some 10, [[(0, some 5), (0 + 1, some 5)]]⟩ = .ok (10, v) :=
  c3_short_record_silently_accepted 3 10 [[(0, some 5), (0 + 1, some 5)]] (by decide)

theorem update_first_getElem?_of_no_match (cfg : Cfg) (e : Entry)
    (hists : List HistState) (k : ℕ) (h : HistState)
    (hk : hists[k]? = some h) (hnm : startswith e.label h.name = false)
    {m : Bool} {hists' : List HistState}
    (hu : update_first cfg e hists = .ok (m, hists')) : hists'[k]? = some h := by
  induction hists generalizing k hists' m with
  | nil => simp at hk
  | cons h0 hs ih =>
    unfold update_first at hu
    by_cases hp : startswith e.label h0.name = true
    · rw [if_pos hp] at hu
      cases hpr : process_record cfg e.record h0 with
      | error err => rw [hpr] at hu; cases hu
      | ok h0' =>
        rw [hpr] at hu
        cases hu
        cases k with
        | zero =>
          exfalso
          have : h0 = h := by simpa using hk
          rw [this] at hp
          rw [hnm] at hp
          cases hp
        | succ k => simpa using (by simpa using hk : hs[k]? = some h)
    · rw [if_neg hp] at hu
      cases hur : update_first cfg e hs with
      | error err => rw [hur] at hu; cases hu
      | ok p =>
        obtain ⟨m0, hs'⟩ := p
        rw [hur] at hu
        cases hu
        cases k with
        | zero => simpa using hk
        | succ k =>
          have hk' : hs[k]? = some h := by simpa using hk
          simpa using ih k hk' hur

theorem read_chunk_loop_getElem?_of_absent (cfg : Cfg) (chunk : List Entry)
    (hists : List HistState) (got : Bool) (k : ℕ) (h : HistState)
    (hk : hists[k]? = some h)
    (habs : ∀ e ∈ chunk, startswith e.label h.name = false)
    {g : Bool} {hists' : List HistState}
    (hrc : read_chunk_loop cfg chunk hists got = .ok (g, hists')) :
    hists'[k]? = some h := by
  induction chunk generalizing hists got with
  | nil =>
    unfold read_chunk_loop at hrc
    cases hrc
    exact hk
  | cons e es ih =>
    unfold read_chunk_loop at hrc
    cases hu : update_first cfg e hists with
    | error err => rw [hu] at hrc; cases hrc
    | ok p =>
      obtain ⟨m, hists1⟩ := p
      rw [hu] at hrc
      have h1 : hists1[k]? = some h :=
        update_first_getElem?_of_no_match cfg e hists k h hk (habs e (by simp)) hu
      exact ih hists1 (got || m) h1 (fun e' he' => habs e' (by simp [he'])) hrc

theorem foldl_div_not_mem_getD (L : List ℕ) (a : List ℚ) (n : ℚ) (i : ℕ) (hi : i ∉ L) :
    (L.foldl (fun a j => a.set j (a.getD j 0 / n)) a).getD i 0 = a.getD i 0 := by
  induction L generalizing a with
  | nil => rfl
  | cons j L ih =>
    simp only [List.foldl_cons]
    rw [ih _ (fun hiL => hi (by simp [hiL]))]
    exact getD_set_ne a (fun hji => hi (by simp [hji.symm])) _ _

theorem foldl_div_getD (L : List ℕ) (hnd : L.Nodup) (a : List ℚ) (n : ℚ) (i : ℕ)
    (hi : i ∈ L) :
    (L.foldl (fun a j => a.set j (a.getD j 0 / n)) a).getD i 0 = a.getD i 0 / n := by
  induction L generalizing a with
  | nil => simp at hi
  | cons j L ih =>
    simp only [List.foldl_cons]
    rcases List.mem_cons.mp hi with hij | hiL
    · subst hij
      have hiL : i ∉ L := (List.nodup_cons.mp hnd).1
      rw [foldl_div_not_mem_getD L _ n i hiL]
      by_cases hlen : i < a.length
      · rw [getD_set_self _ hlen]
      · rw [List.set_eq_of_length_le (by omega)]
        rw [List.getD_eq_default _ _ (by omega)]
        rw [zero_div]
    · have hij : j ≠ i := fun hji => (List.nodup_cons.mp hnd).1 (hji ▸ hiL)
      rw [ih (List.nodup_cons.mp hnd).2 _ hiL]
      rw [getD_set_ne a hij]

theorem ite_upd_avg_rate_avg_overs (c : Prop) [Decidable c] (h : HistState) (x : ℚ) :
    (if c then { h with avg_rate := x } else h).avg_overs = h.avg_overs := by
  split <;> rfl

theorem ite_upd_avg_rate_avg_rate (c : Prop) [Decidable c] (h : HistState) (x : ℚ) :
    (if c then { h with avg_rate := x } else h).avg_rate = if c then x else h.avg_rate := by
  split <;> rfl

theorem print_latency_aggregates_fields (cfg : Cfg) (n : ℕ) (hists : List HistState)
    (k : ℕ) (h : HistState) (hk : hists[k]? = some h) :
    ∃ h2, (print_latency_aggregates cfg n hists)[k]? = some h2 ∧
      h2.avg_overs = cfg.display_range.foldl
        (fun a i => a.set i (a.getD i 0 / (n : ℚ))) h.avg_overs ∧
      h2.avg_rate = (if cfg.extra then h.avg_rate / (n : ℚ) else h.avg_rate) := by
  unfold print_latency_aggregates
  rw [List.getElem?_map, hk]
  simp only [Option.map_some]
  refine ⟨_, rfl, ?_, ?_⟩
  · dsimp only
    rw [ite_upd_avg_rate_avg_overs]
  · dsimp only
    rw [ite_upd_avg_rate_avg_rate]

/-- C9: in a multi-histogram run, a histogram for which no line of a slice's
chunk starts with its name is left completely untouched by `read_chunk`
(that slice is not folded into its sums and maxima), yet
`print_latency_aggregates` divides its accumulated sums by the run-global
slice count `num_slices` — the same divisor used for every histogram — and
not by the number of slices in which that histogram's record appeared. -/
theorem c9_unsynchronized_histogram (cfg : Cfg) (hnd : cfg.display_range.Nodup)
    (hists : List HistState) (chunk : List Entry) (k : ℕ) (h : HistState)
    (hk : hists[k]? = some h)
    (habs : ∀ e ∈ chunk, startswith e.label h.name = false)
    (g : Bool) (hists' : List HistState)
    (hrc : read_chunk cfg hists chunk = .ok (g, hists')) (n : ℕ) :
    hists'[k]? = some h ∧
    ∀ h2, (print_latency_aggregates cfg n hists')[k]? = some h2 →
      (∀ i ∈ cfg.display_range, h2.avg_overs.getD i 0 = h.avg_overs.getD i 0 / (n : ℚ)) ∧
      (cfg.extra = true → h2.avg_rate = h.avg_rate / (n : ℚ)) := by
  have h1 : hists'[k]? = some h :=
    read_chunk_loop_getElem?_of_absent cfg chunk hists false k h hk habs hrc
  refine ⟨h1, ?_⟩
  intro h2 hh2
  obtain ⟨h2', hh2', hov, har⟩ := print_latency_aggregates_fields cfg n hists' k h h1
  have heq : h2 = h2' := by
    rw [hh2] at hh2'
    exact Option.some.inj hh2'
  subst heq
  constructor
  · intro i hi
    rw [hov]
    exact foldl_div_getD cfg.display_range hnd h.avg_overs (n : ℚ) i hi
  · intro hx
    rw [har, if_pos hx]

/-- A second tracked histogram whose record is absent from the chunk. -/
def exHistW : HistState := initHist 2 "writes"

theorem read_chunk_exZW :
    read_chunk exCfg2 [exHistZ, exHistW] [exEntryZ] = .ok (true, [exHistZ, exHistW]) := by
  have hsw : startswith exEntryZ.label exHistZ.name = true := by decide
  have hrec : exEntryZ.record = exRecZ := rfl
  simp [read_chunk, read_chunk_loop, update_first, hsw, hrec, process_record_exZ]

theorem c9_unsynchronized_histogram_witness :
    ([exHistZ, exHistW] : List HistState)[1]? = some exHistW ∧
    ∀ h2, (print_latency_aggregates exCfg2 2 [exHistZ, exHistW])[1]? = some h2 →
      (∀ i ∈ exCfg2.display_range,
        h2.avg_overs.getD i 0 = exHistW.avg_overs.getD i 0 / ((2 : ℕ) : ℚ)) ∧
      (exCfg2.extra = true → h2.avg_rate = exHistW.avg_rate / ((2 : ℕ) : ℚ)) :=
  c9_unsynchronized_histogram exCfg2 (by decide) [exHistZ, exHistW] [exEntryZ] 1 exHistW
    rfl (by decide) true [exHistZ, exHistW] read_chunk_exZW 2

theorem c8_empty_run_witness :
    run_main exCfg2 [exHistZ] [] = .error .emptyRun ∧
    RunError.emptyRun ≠ RunError.record ParseErr.totalNotFound :=
  c8_empty_run exCfg2 [exHistZ] ParseErr.totalNotFound
